import Mathlib

/-!
Verification of the real-time audio front-end of the Jarvis voice assistant
(`src-tauri/src`).  We give a shallow embedding of the core components —
the VAD-based utterance segmenter (`get_text.rs::record_command`), the
wake-word gate (`get_text.rs::wait_for_wakeword`), the bounded frame buffer
(`audio_input.rs::start_audio_stream` push loop and `next_audio_frame`),
the phase-accumulation resampler (`audio_input.rs::start_audio_stream`),
the input-device chooser (`audio_input.rs::choose_input_device`) and the
turn-controller handling of a recording outcome
(`run_jarvis.rs::main_loop_with_running`) — and prove the specified
properties about them.

Conventions of the embedding:
* `i16` samples are modelled as `Int` (their numeric range plays no role in
  any property below); machine counters (`usize`, non-negative `i32`) as `Nat`.
* The audio buffer / input stream is modelled as the explicit list of frames
  handed to a loop, oldest first; a loop that exhausts its finite input list
  returns a distinguished "ran out of input" value (the real loops block on a
  conceptually infinite stream).
* The `f64` resampler phase is embedded as exact arithmetic (and this is
  faithful: the phase values involved are small dyadic sums): the phase is
  kept scaled by 16000, so phase `p/16000` with ratio `R/16000` becomes the
  integer `p` stepped by `R`.
* The `f32` arithmetic of the silence-threshold formula is embedded
  bit-exactly: binary32 values are nonnegative dyadic rationals `n * 2^e`
  represented as pairs `(n, e)`, and each operation rounds its exact result
  to a 24-bit significand with round-to-nearest, ties-to-even, exactly as
  IEEE 754 prescribes for the normal range (all values reached here are
  normal; infinity and NaN arise only at `ms = 0`, which is treated
  explicitly).
-/

namespace Jarvis

/-- Fixed analysis sample rate (`audio_input.rs::SAMPLE_RATE`). -/
def SAMPLE_RATE : Nat := 16000

/-! ## Utterance segmenter (`get_text.rs::record_command`) -/

/-- The mutable local state of `record_command`'s loop:
`is_speaking`, `silent_frames`, `speech_frames`, `speech_segment`
(accumulated samples) and `recent_frames` (the pre-roll queue of recent
speech frames, oldest first). -/
structure SegState where
  is_speaking : Bool
  silent_frames : Nat
  speech_frames : Nat
  speech_segment : List Int
  recent_frames : List (List Int)
deriving DecidableEq, Repr

/-- The state of the segmenter at loop entry: not speaking, zero counters,
empty segment and pre-roll. -/
def initState : SegState :=
  { is_speaking := false, silent_frames := 0, speech_frames := 0,
    speech_segment := [], recent_frames := [] }

/-- One iteration of `record_command`'s per-frame body (lines 104-146):
given the trigger count `K` (`speech_trigger_frames`), the silence threshold
`F` (`silence_threshold_frames`), the current state, the frame just read and
its VAD classification, either continue with a new state (`Sum.inl`) or
close and return the accumulated segment (`Sum.inr`). -/
def record_step (K F : Nat) (s : SegState) (frame : List Int)
    (is_speech : Bool) : SegState ⊕ List Int :=
  if s.is_speaking then
    -- `speech_segment.extend_from_slice(&frame)` happens first
    let seg := s.speech_segment ++ frame
    if is_speech then
      Sum.inl { s with speech_segment := seg, silent_frames := 0 }
    else
      if F ≤ s.silent_frames + 1 then Sum.inr seg
      else Sum.inl { s with speech_segment := seg,
                            silent_frames := s.silent_frames + 1 }
  else if is_speech then
    -- push_back, then pop_front when the queue exceeds the trigger count
    let rf0 := s.recent_frames ++ [frame]
    let rf := if K < rf0.length then rf0.drop 1 else rf0
    if K ≤ s.speech_frames + 1 then
      -- trigger: flush the whole pre-roll into the segment
      Sum.inl { is_speaking := true, silent_frames := 0, speech_frames := 0,
                speech_segment := s.speech_segment ++ rf.flatten,
                recent_frames := [] }
    else
      Sum.inl { s with speech_frames := s.speech_frames + 1,
                       recent_frames := rf }
  else
    Sum.inl { s with speech_frames := 0, recent_frames := [] }

/-- Possible outcomes of running `record_command` on a finite prefix of the
input stream: cancelled ("Recording stopped"), closed with a segment, or the
prefix ran out while the loop would still be running. -/
inductive RecResult where
  | stopped
  | closed (seg : List Int)
  | ranOut (s : SegState)
deriving DecidableEq, Repr

/-- The loop of `record_command` (lines 80-148): at each iteration, when
`frame_count % 100 == 0` and the shared `is_running` flag is false, return
the "Recording stopped" outcome; otherwise read the next frame together with
its VAD classification and run `record_step`.  `running fc` is the value the
shared flag would be observed to have at iteration `fc`. -/
def record_loop (K F : Nat) (running : Nat → Bool) :
    SegState → Nat → List (List Int × Bool) → RecResult
  | s, _, [] => .ranOut s
  | s, fc, (f, sp) :: rest =>
    if fc % 100 = 0 ∧ running fc = false then .stopped
    else
      match record_step K F s f sp with
      | Sum.inr seg => .closed seg
      | Sum.inl s' => record_loop K F running s' (fc + 1) rest

/-- A stream in which the cancellation flag is never cleared. -/
def alwaysOn : Nat → Bool := fun _ => true

/-! ### Bit-exact binary32 (`f32`) arithmetic

The threshold of `record_command` (lines 65-70) is computed in `f32`:
`((sec as f32) * (1000.0 / ms as f32)).ceil() as i32`, then `.max(5)`.
Every value appearing in that computation is a nonnegative binary32 number,
i.e. a dyadic rational `n * 2^e`; we represent it as the pair `(n, e)` and
implement the IEEE 754 operations exactly: each operation rounds its
mathematically exact result to a 24-bit significand, round-to-nearest with
ties-to-even.  Rounding commutes with powers of two, so dividing or
multiplying two binary32 values reduces to rounding one rational `a / b`
of natural numbers and adjusting the exponent. -/

/-- Number of binary digits of `n` (0 for 0); the first argument is
structural fuel, always called with `n` itself, which exceeds the number of
halvings for every `n`. -/
def bitlenAux : Nat → Nat → Nat
  | 0, _ => 0
  | fuel + 1, n => if n = 0 then 0 else bitlenAux fuel (n / 2) + 1

/-- Number of binary digits: `2 ^ (bitlen n - 1) ≤ n < 2 ^ bitlen n` for
`n ≥ 1`. -/
def bitlen (n : Nat) : Nat := bitlenAux n n

/-- Quotient, remainder and divisor of the exact rational `a * 2^s / b`:
for `s ≥ 0` divide `a * 2^s` by `b`, otherwise divide `a` by `b * 2^(-s)`. -/
def scaledDiv (a b : Nat) (s : Int) : Nat × Nat × Nat :=
  if 0 ≤ s then ((a * 2 ^ s.toNat) / b, (a * 2 ^ s.toNat) % b, b)
  else (a / (b * 2 ^ (-s).toNat), a % (b * 2 ^ (-s).toNat), b * 2 ^ (-s).toNat)

/-- Round the nonnegative rational `a / b` (`b ≥ 1`) to binary32: returns
`(n, e)` with value `n * 2^e`.  The shift `s0 = 24 - bitlen a + bitlen b`
scales `a / b` into `[2^23, 2^25)`; one conditional downward adjustment puts
the integer part `n0` into the normalized significand range `[2^23, 2^24)`;
the remainder `r / B` then decides round-to-nearest with ties-to-even (a
round-up to exactly `2^24` is still exactly representable). -/
def roundF32 (a b : Nat) : Nat × Int :=
  if a = 0 then (0, 0)
  else
    let s0 : Int := 24 - (bitlen a : Int) + (bitlen b : Int)
    let t0 := scaledDiv a b s0
    let s : Int := if 2 ^ 24 ≤ t0.1 then s0 - 1 else s0
    let t := scaledDiv a b s
    let n0 := t.1
    let r := t.2.1
    let B := t.2.2
    let n : Nat :=
      if 2 * r < B then n0
      else if B < 2 * r then n0 + 1
      else if n0 % 2 = 0 then n0 else n0 + 1
    (n, -s)

/-- `x as f32` for a machine integer `x` (rounded like any other value once
it exceeds 24 bits). -/
def natToF32 (a : Nat) : Nat × Int := roundF32 a 1

/-- Binary32 division `x / y`: round the exact quotient.  Rounding commutes
with the exponents, so it is the rounding of `x.1 / y.1` with the exponent
difference added. -/
def f32Div (x y : Nat × Int) : Nat × Int :=
  let r := roundF32 x.1 y.1
  (r.1, r.2 + x.2 - y.2)

/-- Binary32 multiplication `x * y`: round the exact product. -/
def f32Mul (x y : Nat × Int) : Nat × Int :=
  let r := roundF32 (x.1 * y.1) 1
  (r.1, r.2 + x.2 + y.2)

/-- `.ceil()` of a nonnegative binary32 value followed by the exact integer
read-off: `f32::ceil` is exact (for values below `2^24` the ceiling is
representable, above it the value is already an integer), so this is the
mathematical ceiling of `n * 2^e`. -/
def f32CeilNat (x : Nat × Int) : Nat :=
  if 0 ≤ x.2 then x.1 * 2 ^ x.2.toNat
  else (x.1 + 2 ^ (-x.2).toNat - 1) / 2 ^ (-x.2).toNat

/-- `silence_threshold_frames` of `record_command` (lines 65-70):
`((sec as f32) * (1000.0 / ms as f32)).ceil() as i32`, then `.max(5)`, in
bit-exact binary32 arithmetic.  The `as i32` cast saturates at `i32::MAX`
(Rust float-to-int casts saturate).  At `ms = 0` the division yields `+inf`,
so the product is `+inf` for `sec > 0` (cast saturates to `i32::MAX`) and
`NaN` for `sec = 0` (cast gives 0, then `.max(5)` gives 5); these two
non-finite cases are written out explicitly. -/
def silence_threshold_frames (sec ms : Nat) : Nat :=
  if ms = 0 then
    if sec = 0 then 5 else 2147483647
  else
    let qf := f32Div (roundF32 1000 1) (natToF32 ms)
    let secf := natToF32 sec
    let prod := f32Mul secf qf
    let frames := min (f32CeilNat prod) 2147483647
    max frames 5

/-- `frame_length_vad` of `record_command` (line 62):
`(SAMPLE_RATE / 1000) * frame_duration_ms`. -/
def frame_length_vad (ms : Nat) : Nat := (SAMPLE_RATE / 1000) * ms

/-- A run of frames all classified as speech. -/
def speechPairs (fs : List (List Int)) : List (List Int × Bool) :=
  fs.map (fun f => (f, true))

/-- A run of frames all classified as silence. -/
def silencePairs (fs : List (List Int)) : List (List Int × Bool) :=
  fs.map (fun f => (f, false))

/-! ## Wake-word gate (`get_text.rs::wait_for_wakeword`) -/

/-- Possible outcomes of the wake-word loop on a finite prefix of the input
stream: cancelled ("Wake word detection stopped"), wake word detected, the
keyword engine failed, or the prefix ran out. -/
inductive WwdResult where
  | stopped
  | detected
  | procFailed
  | ranOut
deriving DecidableEq, Repr

/-- The loop of `wait_for_wakeword` (lines 34-54): every 100 frames check the
shared flag; otherwise read a frame and feed it to the keyword engine, whose
outcome per frame is either an error or a keyword index (`Int`); a
non-negative index breaks out with success, a negative index continues
(incrementing `frame_count`). -/
def wait_for_wakeword_loop (running : Nat → Bool) :
    Nat → List (Except Unit Int) → WwdResult
  | _, [] => .ranOut
  | fc, o :: rest =>
    if fc % 100 = 0 ∧ running fc = false then .stopped
    else
      match o with
      | .error _ => .procFailed
      | .ok k =>
        if 0 ≤ k then .detected
        else wait_for_wakeword_loop running (fc + 1) rest

/-- The smallest multiple of 100 that is at least `N`: the index of the first
cancellation check performed at or after iteration `N`. -/
def nextCheck (N : Nat) : Nat := 100 * ((N + 99) / 100)

/-! ## Turn-controller handling of the recording outcome
(`run_jarvis.rs::main_loop_with_running`, lines 456-462) -/

/-- The error cases of `record_command`'s `Result`: the cancellation outcome
`Err("Recording stopped")`, a VAD classifier failure, and a poisoned VAD or
buffer lock.  All travel the same `Result::Err` channel in the source. -/
inductive RecErr where
  | stopped
  | vadFailed
  | lockPoisoned
deriving DecidableEq, Repr

/-- What one iteration of the session loop does with the value of
`get_text::record_command(app, &is_running)`. -/
inductive IterAct where
  | sessionFatal (e : RecErr)
  | backToWakeListening
  | processing (seg : List Int)
deriving DecidableEq, Repr

/-- Lines 456-462 of `run_jarvis.rs`: the `?` operator propagates any `Err`
out of `main_loop_with_running` (ending the session), while an `Ok` segment
is tested for emptiness — empty returns to `WakeListening`, non-empty goes
to `Processing`. -/
def handleRecordResult : Except RecErr (List Int) → IterAct
  | .error e => .sessionFatal e
  | .ok seg => if seg = [] then .backToWakeListening else .processing seg

/-- The `Result` value `record_command` returns for a finished loop outcome
(`none` when the finite input prefix ran out before the loop exited). -/
def record_command_result : RecResult → Option (Except RecErr (List Int))
  | .stopped => some (Except.error RecErr.stopped)
  | .closed seg => some (Except.ok seg)
  | .ranOut _ => none

/-! ## Frame buffer (`audio_input.rs`) -/

/-- One push into the shared buffer (`start_audio_stream`, lines 123-128):
`if buf.len() >= buf.capacity() { buf.pop_front(); } buf.push_back(sample)`.
The buffer is a list with the oldest sample at the head; `C` is the
capacity. -/
def push (C : Nat) (q : List Int) (x : Int) : List Int :=
  if C ≤ q.length then q.drop 1 ++ [x] else q ++ [x]

/-- Pushing a whole callback's worth of samples in order. -/
def pushAll (C : Nat) (q : List Int) (xs : List Int) : List Int :=
  xs.foldl (push C) q

/-- One poll of `next_audio_frame` (lines 158-173): when at least
`frame_size` samples are buffered, `drain(..frame_size)` removes and returns
the oldest `frame_size` samples; otherwise the loop sleeps 10 ms and
re-polls, modelled as `none`.  Returns the drained frame and the remaining
buffer. -/
def next_audio_frame (frame_size : Nat) (buf : List Int) :
    Option (List Int × List Int) :=
  if frame_size ≤ buf.length then some (buf.take frame_size, buf.drop frame_size)
  else none

/-! ## Resampler (`audio_input.rs::start_audio_stream`, lines 100-118)

The source keeps `resample_pos : f64` and `resample_factor = R / 16000`
where `R` is the input rate.  We scale both by 16000: the phase becomes a
natural number `p` (the source phase is `p / 16000`), the factor becomes
`R`, and the comparisons `pos < 1.0`, `pos -= 1.0` become `p < 16000`,
`p - 16000`.  Arithmetic is exact. -/

/-- The inner `while resample_pos < 1.0` loop for one input sample: returns
the number of times the sample is emitted and the phase after the loop
(scaled by 16000).  The `0 < R` guard only makes termination explicit: at a
zero input rate the source loop would never terminate. -/
def emitLoop (R p : Nat) : Nat × Nat :=
  if _hp : p < 16000 then
    if _hR : 0 < R then
      let r := emitLoop R (p + R)
      (r.1 + 1, r.2)
    else (0, p)
  else (0, p)
termination_by 16000 - p
decreasing_by omega

/-- The per-callback resampling loop: for each input sample run the inner
emit loop, then subtract 1.0 from the phase (`p - 16000` scaled).  Returns
the resampled output and the final phase. -/
def resampleChunk (R : Nat) (p : Nat) (data : List Int) : List Int × Nat :=
  match data with
  | [] => ([], p)
  | sample :: rest =>
    let e := emitLoop R p
    let r := resampleChunk R (e.2 - 16000) rest
    (List.replicate e.1 sample ++ r.1, r.2)

/-! ## Input device selection (`audio_input.rs::choose_input_device`) -/

/-- Whether `needle` occurs contiguously inside `hay`. -/
def hasSubList (needle hay : List Char) : Bool :=
  match hay with
  | [] => needle.isEmpty
  | _ :: t => needle.isPrefixOf hay || hasSubList needle t

/-- Case-insensitive substring test:
`name.to_lowercase().contains(&query.to_lowercase())`. -/
def containsCI (deviceName query : String) : Bool :=
  hasSubList (query.toList.map Char.toLower) (deviceName.toList.map Char.toLower)

/-- `choose_input_device` (lines 176-252) over the list of enumerated device
names: an empty device list fails; a name query selects the first device
whose name contains the query case-insensitively, else fall back to the
numeric index, and to index 0 when the index is out of range. -/
def choose_input_device (names : List String) (query : Option String)
    (index : Nat) : Option String :=
  if names = [] then none
  else
    let byIndex : Option String :=
      match names[index]? with
      | some d => some d
      | none => names[0]?
    match query with
    | some q =>
      match names.find? (fun n => containsCI n q) with
      | some found => some found
      | none => byIndex
    | none => byIndex

/-! ## Lemmas about the segmenter loop -/

lemma record_loop_cons_inl (K F : Nat) (running : Nat → Bool) (s s' : SegState)
    (fc : Nat) (f : List Int) (sp : Bool) (rest : List (List Int × Bool))
    (hrun : ¬ (fc % 100 = 0 ∧ running fc = false))
    (h : record_step K F s f sp = Sum.inl s') :
    record_loop K F running s fc ((f, sp) :: rest) =
      record_loop K F running s' (fc + 1) rest := by
  rw [record_loop, if_neg hrun, h]

lemma record_loop_cons_inr (K F : Nat) (running : Nat → Bool) (s : SegState)
    (seg : List Int) (fc : Nat) (f : List Int) (sp : Bool)
    (rest : List (List Int × Bool))
    (hrun : ¬ (fc % 100 = 0 ∧ running fc = false))
    (h : record_step K F s f sp = Sum.inr seg) :
    record_loop K F running s fc ((f, sp) :: rest) = .closed seg := by
  rw [record_loop, if_neg hrun, h]

lemma alwaysOn_check (fc : Nat) : ¬ (fc % 100 = 0 ∧ alwaysOn fc = false) := by
  simp [alwaysOn]

lemma record_step_armed_silence (K F : Nat) (s : SegState) (f : List Int)
    (h : s.is_speaking = false) :
    record_step K F s f false =
      Sum.inl { s with speech_frames := 0, recent_frames := [] } := by
  simp [record_step, h]

lemma record_step_armed_speech_lt (K F : Nat) (s : SegState) (f : List Int)
    (h : s.is_speaking = false) (hlen : s.recent_frames.length = s.speech_frames)
    (hK : s.speech_frames + 1 < K) :
    record_step K F s f true =
      Sum.inl { s with speech_frames := s.speech_frames + 1,
                       recent_frames := s.recent_frames ++ [f] } := by
  have h1 : ¬ K < s.recent_frames.length + 1 := by omega
  have h2 : ¬ K ≤ s.speech_frames + 1 := by omega
  simp [record_step, h, h1, h2]

lemma record_step_armed_speech_trigger (K F : Nat) (s : SegState) (f : List Int)
    (h : s.is_speaking = false) (hlen : s.recent_frames.length = s.speech_frames)
    (hK : s.speech_frames + 1 = K) :
    record_step K F s f true =
      Sum.inl { is_speaking := true, silent_frames := 0, speech_frames := 0,
                speech_segment := s.speech_segment ++ (s.recent_frames ++ [f]).flatten,
                recent_frames := [] } := by
  have h1 : ¬ K < s.recent_frames.length + 1 := by omega
  have h2 : K ≤ s.speech_frames + 1 := by omega
  simp [record_step, h, h1, h2]

lemma armed_run_lt (K F : Nat) (fs : List (List Int)) :
    ∀ (s : SegState) (fc : Nat), s.is_speaking = false →
      s.recent_frames.length = s.speech_frames →
      s.speech_frames + fs.length < K →
      record_loop K F alwaysOn s fc (speechPairs fs) =
        .ranOut { s with speech_frames := s.speech_frames + fs.length,
                         recent_frames := s.recent_frames ++ fs } := by
  induction fs with
  | nil =>
    intro s fc h hlen hK
    simp [speechPairs, record_loop]
  | cons f rest ih =>
    intro s fc h hlen hK
    have hK' : s.speech_frames + 1 + rest.length < K := by
      simp only [List.length_cons] at hK; omega
    have step := record_step_armed_speech_lt K F s f h hlen (by omega)
    rw [show speechPairs (f :: rest) = (f, true) :: speechPairs rest from rfl]
    rw [record_loop_cons_inl K F alwaysOn s _ fc f true _ (alwaysOn_check fc) step]
    have e1 : s.speech_frames + (f :: rest).length = s.speech_frames + 1 + rest.length := by
      simp only [List.length_cons]; omega
    have e2 : s.recent_frames ++ f :: rest = (s.recent_frames ++ [f]) ++ rest := by simp
    rw [e1, e2]
    exact ih _ (fc + 1) (by simp [h]) (by simp [hlen]) (by simpa using hK')

lemma armed_run_trigger (K F : Nat) (fs : List (List Int)) :
    ∀ (s : SegState) (fc : Nat), s.is_speaking = false →
      s.recent_frames.length = s.speech_frames →
      s.speech_frames + fs.length = K → fs ≠ [] →
      record_loop K F alwaysOn s fc (speechPairs fs) =
        .ranOut { is_speaking := true, silent_frames := 0, speech_frames := 0,
                  speech_segment := s.speech_segment ++ (s.recent_frames ++ fs).flatten,
                  recent_frames := [] } := by
  induction fs with
  | nil => intro s fc _ _ _ hne; exact absurd rfl hne
  | cons f rest ih =>
    intro s fc h hlen hK _
    rw [show speechPairs (f :: rest) = (f, true) :: speechPairs rest from rfl]
    by_cases hr : rest = []
    · subst hr
      have hK1 : s.speech_frames + 1 = K := by
        simp only [List.length_cons, List.length_nil] at hK; omega
      have step := record_step_armed_speech_trigger K F s f h hlen hK1
      rw [record_loop_cons_inl K F alwaysOn s _ fc f true _ (alwaysOn_check fc) step]
      simp [speechPairs, record_loop]
    · have hrl : 0 < rest.length := List.length_pos.mpr hr
      have hK' : s.speech_frames + 1 + rest.length = K := by
        simp only [List.length_cons] at hK; omega
      have step := record_step_armed_speech_lt K F s f h hlen (by omega)
      rw [record_loop_cons_inl K F alwaysOn s _ fc f true _ (alwaysOn_check fc) step]
      have e2 : s.recent_frames ++ f :: rest = (s.recent_frames ++ [f]) ++ rest := by simp
      rw [e2]
      exact ih _ (fc + 1) (by simp [h]) (by simp [hlen]) (by simpa using hK') hr

lemma record_step_triggered_speech (K F : Nat) (s : SegState) (f : List Int)
    (h : s.is_speaking = true) :
    record_step K F s f true =
      Sum.inl { s with speech_segment := s.speech_segment ++ f,
                       silent_frames := 0 } := by
  simp [record_step, h]

lemma record_step_triggered_silence_lt (K F : Nat) (s : SegState) (f : List Int)
    (h : s.is_speaking = true) (hF : s.silent_frames + 1 < F) :
    record_step K F s f false =
      Sum.inl { s with speech_segment := s.speech_segment ++ f,
                       silent_frames := s.silent_frames + 1 } := by
  have h1 : ¬ F ≤ s.silent_frames + 1 := by omega
  simp [record_step, h, h1]

lemma record_step_triggered_silence_close (K F : Nat) (s : SegState) (f : List Int)
    (h : s.is_speaking = true) (hF : F ≤ s.silent_frames + 1) :
    record_step K F s f false = Sum.inr (s.speech_segment ++ f) := by
  simp [record_step, h, hF]

lemma triggered_run_lt (K F : Nat) (fs : List (List Int)) :
    ∀ (s : SegState) (fc : Nat), s.is_speaking = true →
      s.silent_frames + fs.length < F →
      record_loop K F alwaysOn s fc (silencePairs fs) =
        .ranOut { s with speech_segment := s.speech_segment ++ fs.flatten,
                         silent_frames := s.silent_frames + fs.length } := by
  induction fs with
  | nil =>
    intro s fc h hF
    simp [silencePairs, record_loop]
  | cons f rest ih =>
    intro s fc h hF
    have hF' : s.silent_frames + 1 + rest.length < F := by
      simp only [List.length_cons] at hF; omega
    have step := record_step_triggered_silence_lt K F s f h (by omega)
    rw [show silencePairs (f :: rest) = (f, false) :: silencePairs rest from rfl]
    rw [record_loop_cons_inl K F alwaysOn s _ fc f false _ (alwaysOn_check fc) step]
    have e1 : s.silent_frames + (f :: rest).length = s.silent_frames + 1 + rest.length := by
      simp only [List.length_cons]; omega
    have e2 : s.speech_segment ++ (f :: rest).flatten = (s.speech_segment ++ f) ++ rest.flatten := by
      simp
    rw [e1, e2]
    exact ih _ (fc + 1) (by simp [h]) (by simpa using hF')

lemma triggered_run_close (K F : Nat) (fs : List (List Int)) :
    ∀ (s : SegState) (fc : Nat), s.is_speaking = true →
      s.silent_frames + fs.length = F → fs ≠ [] →
      record_loop K F alwaysOn s fc (silencePairs fs) =
        .closed (s.speech_segment ++ fs.flatten) := by
  induction fs with
  | nil => intro s fc _ _ hne; exact absurd rfl hne
  | cons f rest ih =>
    intro s fc h hF _
    rw [show silencePairs (f :: rest) = (f, false) :: silencePairs rest from rfl]
    by_cases hr : rest = []
    · subst hr
      have hF1 : F ≤ s.silent_frames + 1 := by
        simp only [List.length_cons, List.length_nil] at hF; omega
      have step := record_step_triggered_silence_close K F s f h hF1
      rw [record_loop_cons_inr K F alwaysOn s _ fc f false _ (alwaysOn_check fc) step]
      simp
    · have hrl : 0 < rest.length := List.length_pos.mpr hr
      have hF' : s.silent_frames + 1 + rest.length = F := by
        simp only [List.length_cons] at hF; omega
      have step := record_step_triggered_silence_lt K F s f h (by omega)
      rw [record_loop_cons_inl K F alwaysOn s _ fc f false _ (alwaysOn_check fc) step]
      have e2 : s.speech_segment ++ (f :: rest).flatten = (s.speech_segment ++ f) ++ rest.flatten := by
        simp
      rw [e2]
      exact ih _ (fc + 1) (by simp [h]) (by simpa using hF') hr

/-! ## Claim theorems for the segmenter -/

/-- C1: for every speech-trigger count `K ≥ 1` and every frame sequence, an
Armed segmenter (not speaking, zero speech run, empty pre-roll and segment)
transitions to Triggered exactly on the `K`-th consecutive speech frame — any
shorter run of `j < K` consecutive speech frames leaves it Armed with speech
run `j` and exactly those `j` frames as pre-roll — and at the trigger the
accumulated utterance is exactly the `K` consecutive speech frames in order
(the pre-roll is flushed in full); moreover any silence frame in the Armed
state resets the speech run to 0 and clears the pre-roll. -/
theorem record_command_armed_trigger (K F : Nat) (fs : List (List Int))
    (s : SegState) (fc : Nat) (hK : 1 ≤ K) (hlen : fs.length = K)
    (harmed : s.is_speaking = false) (hspf : s.speech_frames = 0)
    (hrec : s.recent_frames = []) (hseg : s.speech_segment = []) :
    (record_loop K F alwaysOn s fc (speechPairs fs) =
      .ranOut { is_speaking := true, silent_frames := 0, speech_frames := 0,
                speech_segment := fs.flatten, recent_frames := [] }) ∧
    (∀ j, j < K →
      record_loop K F alwaysOn s fc (speechPairs (fs.take j)) =
        .ranOut { s with speech_frames := j, recent_frames := fs.take j }) ∧
    (∀ (t : SegState) (g : List Int), t.is_speaking = false →
      record_step K F t g false =
        Sum.inl { t with speech_frames := 0, recent_frames := [] }) := by
  refine ⟨?_, ?_, ?_⟩
  · rw [armed_run_trigger K F fs s fc harmed (by simp [hrec, hspf])
      (by simp [hspf, hlen]) (by intro hnil; rw [hnil] at hlen; simp at hlen; omega)]
    simp [hseg, hrec]
  · intro j hj
    have htake : (fs.take j).length = j := by
      rw [List.length_take]; omega
    rw [armed_run_lt K F (fs.take j) s fc harmed (by simp [hrec, hspf])
      (by rw [htake, hspf]; omega)]
    cases s with
    | mk a b c d e =>
      simp only [SegState.mk.injEq] at hspf hrec ⊢
      simp_all [htake]
  · intro t g ht
    exact record_step_armed_silence K F t g ht

/-- Witness for C1: `K = 2`, `F = 5`, two speech frames `[1]`, `[2]` trigger
with utterance `[1, 2]`. -/
theorem record_command_armed_trigger_witness :
    1 ≤ 2 ∧ ([[1], [2]] : List (List Int)).length = 2 ∧
    record_loop 2 5 alwaysOn initState 0 (speechPairs [[1], [2]]) =
      .ranOut { is_speaking := true, silent_frames := 0, speech_frames := 0,
                speech_segment := [1, 2], recent_frames := [] } :=
  ⟨by decide, by decide,
    (record_command_armed_trigger 2 5 [[1], [2]] initState 0 (by decide) rfl
      rfl rfl rfl rfl).1⟩

lemma nat_ceil_div (a b : Nat) (hb : 1 ≤ b) :
    ⌈(a : ℚ) / (b : ℚ)⌉₊ = (a + b - 1) / b := by
  have hb0 : (0 : ℚ) < (b : ℚ) := by exact_mod_cast hb
  rcases Nat.eq_zero_or_pos a with ha | ha
  · subst ha
    simp only [Nat.cast_zero, zero_div, Nat.ceil_zero]
    rw [eq_comm, Nat.div_eq_of_lt (by omega)]
  · set q := (a + b - 1) / b with hq
    have h1 : q * b ≤ a + b - 1 := Nat.div_mul_le_self _ _
    have h2 : a + b - 1 < (q + 1) * b := by
      rw [hq]
      exact (Nat.div_lt_iff_lt_mul (by omega)).mp (Nat.lt_succ_self _)
    have h2' : a + b - 1 < q * b + b := by rw [Nat.succ_mul] at h2; exact h2
    have hA : a ≤ q * b := by omega
    have hq1 : 1 ≤ q := by
      rw [hq]
      exact (Nat.le_div_iff_mul_le (by omega)).mpr (by omega)
    apply le_antisymm
    · rw [Nat.ceil_le, div_le_iff₀ hb0]
      exact_mod_cast hA
    · have hnat : (q - 1) * b < a := by
        have hsub : (q - 1) * b = q * b - 1 * b := by rw [Nat.sub_mul]
        omega
      have : q - 1 < ⌈(a : ℚ) / (b : ℚ)⌉₊ := by
        rw [Nat.lt_ceil, lt_div_iff₀ hb0]
        exact_mod_cast hnat
      omega

lemma silence_threshold_ge_five (sec ms : Nat) :
    5 ≤ silence_threshold_frames sec ms := by
  rw [silence_threshold_frames]
  split_ifs
  · exact le_refl 5
  · norm_num
  · exact le_max_right _ 5

/-- C2 counterexample: the silence-threshold frame count does not equal the
exact `max(ceil(silence_threshold_seconds * 1000 / frame_duration_ms), 5)`.
At `silence_threshold_seconds = 13`, `frame_duration_ms = 13` the code
computes in `f32`: `1000.0 / 13.0` rounds to `5041231 / 65536 =
76.92308044…`, and `13.0 *` that rounds to `16384001 / 16384 =
1000.00006103515625`, whose ceiling is `1001`; the exact formula of the
claim gives `ceil(13000 / 13) = 1000`. -/
theorem silence_threshold_not_exact_ceil :
    silence_threshold_frames 13 13 = 1001 ∧
    max (⌈((13 * 1000 : ℕ) : ℚ) / ((13 : ℕ) : ℚ)⌉₊) 5 = 1000 ∧
    silence_threshold_frames 13 13 ≠
      max (⌈((13 * 1000 : ℕ) : ℚ) / ((13 : ℕ) : ℚ)⌉₊) 5 := by
  have h2 : max (⌈((13 * 1000 : ℕ) : ℚ) / ((13 : ℕ) : ℚ)⌉₊) 5 = 1000 := by
    rw [nat_ceil_div (13 * 1000) 13 (by norm_num)]
    decide
  refine ⟨by decide, h2, ?_⟩
  rw [h2]
  decide

/-- C2 (amended): the silence-threshold frame count is
`max(ceil((sec as f32) * (1000.0 / ms as f32)), 5)` computed in binary32
arithmetic — which can exceed the exact `max(ceil(sec*1000/ms), 5)` by one
(see the counterexample at `sec = ms = 13`: 1001 versus 1000) — and in
particular is always at least 5; and with `F` that threshold: a Triggered
segmenter with a fresh silence run appends every processed frame to the
accumulated utterance, stays Triggered with silence run `j` after any
`j < F` consecutive silence frames, closes and returns the utterance exactly
on the `F`-th consecutive silence frame, and resets the silence run to 0 on
any interleaving speech frame. -/
theorem record_command_triggered_close (sec ms K : Nat) (hms : 1 ≤ ms) :
    (5 ≤ silence_threshold_frames sec ms) ∧
    (∀ (s : SegState) (fc : Nat) (fs : List (List Int)),
      s.is_speaking = true → s.silent_frames = 0 →
      fs.length = silence_threshold_frames sec ms →
      record_loop K (silence_threshold_frames sec ms) alwaysOn s fc
          (silencePairs fs) =
        .closed (s.speech_segment ++ fs.flatten)) ∧
    (∀ (s : SegState) (fc : Nat) (fs : List (List Int)) (j : Nat),
      s.is_speaking = true → s.silent_frames = 0 →
      j < silence_threshold_frames sec ms → j ≤ fs.length →
      record_loop K (silence_threshold_frames sec ms) alwaysOn s fc
          (silencePairs (fs.take j)) =
        .ranOut { s with speech_segment := s.speech_segment ++ (fs.take j).flatten,
                         silent_frames := j }) ∧
    (∀ (s : SegState) (f : List Int), s.is_speaking = true →
      record_step K (silence_threshold_frames sec ms) s f true =
        Sum.inl { s with speech_segment := s.speech_segment ++ f,
                         silent_frames := 0 }) := by
  refine ⟨silence_threshold_ge_five sec ms, ?_, ?_, ?_⟩
  · intro s fc fs hsp hsf hlen
    have h5 := silence_threshold_ge_five sec ms
    exact triggered_run_close K _ fs s fc hsp (by omega)
      (by intro hnil; rw [hnil] at hlen; simp at hlen; omega)
  · intro s fc fs j hsp hsf hj hjle
    have htake : (fs.take j).length = j := by
      rw [List.length_take]; omega
    rw [triggered_run_lt K _ (fs.take j) s fc hsp (by omega)]
    cases s with
    | mk a b c d e =>
      simp only [SegState.mk.injEq] at hsf ⊢
      simp_all [htake]
  · intro s f hsp
    exact record_step_triggered_speech K _ s f hsp

/-- Witness for C2: `sec = 1`, `ms = 200` gives threshold 5; a Triggered
segmenter with segment `[9]` closes after 5 silence frames with `[9,0,0,0,0,0]`. -/
theorem record_command_triggered_close_witness :
    1 ≤ 200 ∧ silence_threshold_frames 1 200 = 5 ∧
    record_loop 1 (silence_threshold_frames 1 200) alwaysOn
        { is_speaking := true, silent_frames := 0, speech_frames := 0,
          speech_segment := [9], recent_frames := [] } 0
        (silencePairs [[0], [0], [0], [0], [0]]) =
      .closed [9, 0, 0, 0, 0, 0] := by
  refine ⟨by decide, by decide, ?_⟩
  have h := (record_command_triggered_close 1 200 1 (by decide)).2.1
    { is_speaking := true, silent_frames := 0, speech_frames := 0,
      speech_segment := [9], recent_frames := [] } 0
    [[0], [0], [0], [0], [0]] rfl rfl (by decide)
  simpa using h

/-! ## Frame buffer claims -/

lemma pushAll_eq_drop (C : Nat) (hC : 1 ≤ C) :
    ∀ (xs q : List Int), q.length ≤ C →
      pushAll C q xs = (q ++ xs).drop (q.length + xs.length - C) := by
  intro xs
  induction xs with
  | nil =>
    intro q hq
    simp [pushAll, Nat.sub_eq_zero_of_le hq]
  | cons x rest ih =>
    intro q hq
    rw [show pushAll C q (x :: rest) = pushAll C (push C q x) rest from rfl]
    by_cases hfull : C ≤ q.length
    · have hqC : q.length = C := le_antisymm hq hfull
      have hqne : q ≠ [] := by
        intro hnil; rw [hnil] at hqC; simp at hqC; omega
      obtain ⟨a, t, rfl⟩ := List.exists_cons_of_ne_nil hqne
      have hpush : push C (a :: t) x = t ++ [x] := by
        rw [push, if_pos hfull]
        simp
      rw [hpush, ih (t ++ [x]) (by simp at hqC ⊢; omega)]
      have ecount : (t ++ [x]).length + rest.length - C =
          (a :: t).length + (x :: rest).length - C - 1 := by
        simp; omega
      have ecount2 : (a :: t).length + (x :: rest).length - C =
          ((a :: t).length + (x :: rest).length - C - 1) + 1 := by
        simp at hqC ⊢; omega
      rw [ecount, ecount2, show (a :: t) ++ x :: rest = a :: (t ++ x :: rest) from rfl,
        List.drop_succ_cons]
      congr 1
      simp
    · have hpush : push C q x = q ++ [x] := by rw [push, if_neg hfull]
      rw [hpush, ih (q ++ [x]) (by simp; omega)]
      have ecount : (q ++ [x]).length + rest.length - C =
          q.length + (x :: rest).length - C := by
        simp; omega
      rw [ecount]
      congr 1
      simp

lemma push_length_le (C : Nat) (q : List Int) (x : Int) (hC : 1 ≤ C)
    (hq : q.length ≤ C) : (push C q x).length ≤ C := by
  rw [push]
  split_ifs with h
  · simp
    omega
  · simp
    omega

/-- C3: for every capacity `C ≥ 1` and every sequence of pushes whose total
length exceeds `C`, starting from an empty buffer the buffer afterwards
contains exactly the most recent `C` samples in arrival order, its length is
exactly `C`, and a single push (a total function — it never fails or blocks)
never grows a within-capacity buffer beyond the capacity. -/
theorem frame_buffer_drop_oldest (C : Nat) (xs : List Int) (hC : 1 ≤ C)
    (hlen : C < xs.length) :
    pushAll C [] xs = xs.drop (xs.length - C) ∧
    (pushAll C [] xs).length = C ∧
    (∀ (q : List Int) (x : Int), q.length ≤ C → (push C q x).length ≤ C) := by
  have key : pushAll C [] xs = xs.drop (xs.length - C) := by
    have h := pushAll_eq_drop C hC xs [] (by simp)
    simpa using h
  refine ⟨key, ?_, fun q x hq => push_length_le C q x hC hq⟩
  rw [key, List.length_drop]
  omega

/-- Witness for C3: capacity 2, pushes `[1, 2, 3]` leave `[2, 3]`. -/
theorem frame_buffer_drop_oldest_witness :
    1 ≤ 2 ∧ 2 < ([1, 2, 3] : List Int).length ∧
    pushAll 2 [] [1, 2, 3] = [2, 3] ∧ (pushAll 2 [] [1, 2, 3]).length = 2 :=
  ⟨by decide, by decide, by
    have h := frame_buffer_drop_oldest 2 [1, 2, 3] (by decide) (by decide)
    exact ⟨h.1.trans (by decide), h.2.1⟩⟩

/-- C4: whenever at least `n` samples are buffered, `next_audio_frame`
returns (in one poll, without shrinking the request) exactly the oldest `n`
samples in arrival order, and the remaining buffer is the original buffer
with those `n` front samples removed. -/
theorem next_audio_frame_spec (n : Nat) (buf : List Int) (h : n ≤ buf.length) :
    ∃ out rest, next_audio_frame n buf = some (out, rest) ∧
      out.length = n ∧ out ++ rest = buf ∧
      out = buf.take n ∧ rest = buf.drop n := by
  refine ⟨buf.take n, buf.drop n, ?_, ?_, ?_, rfl, rfl⟩
  · rw [next_audio_frame, if_pos h]
  · rw [List.length_take]
    omega
  · exact List.take_append_drop n buf

/-- Witness for C4: a buffer `[5, 6, 7]` and `n = 2`. -/
theorem next_audio_frame_spec_witness :
    2 ≤ ([5, 6, 7] : List Int).length ∧
    (∃ out rest, next_audio_frame 2 [5, 6, 7] = some (out, rest) ∧
      out.length = 2 ∧ out ++ rest = [5, 6, 7] ∧
      out = ([5, 6, 7] : List Int).take 2 ∧ rest = ([5, 6, 7] : List Int).drop 2) :=
  ⟨by decide, next_audio_frame_spec 2 [5, 6, 7] (by decide)⟩

/-! ## Resampler claims -/

lemma emitLoop_spec (R : Nat) (hR : 0 < R) (p : Nat) :
    (emitLoop R p).2 = p + R * (emitLoop R p).1 ∧
    (p < 16000 → 16000 ≤ (emitLoop R p).2 ∧ (emitLoop R p).2 < 16000 + R) ∧
    (16000 ≤ p → (emitLoop R p).1 = 0 ∧ (emitLoop R p).2 = p) := by
  have main : ∀ (fuel q : Nat), 16000 - q ≤ fuel →
      (emitLoop R q).2 = q + R * (emitLoop R q).1 ∧
      (q < 16000 → 16000 ≤ (emitLoop R q).2 ∧ (emitLoop R q).2 < 16000 + R) ∧
      (16000 ≤ q → (emitLoop R q).1 = 0 ∧ (emitLoop R q).2 = q) := by
    intro fuel
    induction fuel with
    | zero =>
      intro q hq
      have hge : 16000 ≤ q := by omega
      rw [emitLoop, dif_neg (by omega)]
      exact ⟨by simp, fun h => by omega, fun _ => ⟨rfl, rfl⟩⟩
    | succ n ih =>
      intro q hq
      by_cases hlt : q < 16000
      · rw [emitLoop, dif_pos hlt, dif_pos hR]
        obtain ⟨h1, h2, h3⟩ := ih (q + R) (by omega)
        refine ⟨?_, ?_, ?_⟩
        · show (emitLoop R (q + R)).2 = q + R * ((emitLoop R (q + R)).1 + 1)
          rw [h1]
          ring
        · intro _
          show 16000 ≤ (emitLoop R (q + R)).2 ∧ (emitLoop R (q + R)).2 < 16000 + R
          by_cases hqr : q + R < 16000
          · exact h2 hqr
          · obtain ⟨_, he⟩ := h3 (by omega)
            rw [he]
            omega
        · intro hge
          omega
      · rw [emitLoop, dif_neg hlt]
        exact ⟨by simp, fun h => absurd h hlt, fun _ => ⟨rfl, rfl⟩⟩
  exact main (16000 - p) p le_rfl

lemma resampleChunk_spec (R : Nat) (hR : 0 < R) :
    ∀ (data : List Int) (p : Nat), p < R →
      (resampleChunk R p data).2 < R ∧
      (resampleChunk R p data).2 + data.length * 16000 =
        p + R * (resampleChunk R p data).1.length := by
  intro data
  induction data with
  | nil =>
    intro p hp
    refine ⟨hp, ?_⟩
    simp [resampleChunk]
  | cons sample rest ih =>
    intro p hp
    obtain ⟨h1, h2, h3⟩ := emitLoop_spec R hR p
    have hout : 16000 ≤ (emitLoop R p).2 := by
      by_cases hlt : p < 16000
      · exact (h2 hlt).1
      · rw [(h3 (by omega)).2]
        omega
    have hp2 : (emitLoop R p).2 - 16000 < R := by
      by_cases hlt : p < 16000
      · have := (h2 hlt).2
        omega
      · rw [(h3 (by omega)).2]
        omega
    obtain ⟨ih1, ih2⟩ := ih ((emitLoop R p).2 - 16000) hp2
    rw [resampleChunk]
    refine ⟨ih1, ?_⟩
    show (resampleChunk R ((emitLoop R p).2 - 16000) rest).2 +
        (sample :: rest).length * 16000 =
      p + R * (List.replicate (emitLoop R p).1 sample ++
        (resampleChunk R ((emitLoop R p).2 - 16000) rest).1).length
    rw [List.length_append, List.length_replicate, List.length_cons,
      Nat.mul_add, Nat.add_mul, one_mul]
    omega

/-- C5: feeding `T * R` samples (i.e. `T` seconds of mono input at rate `R`,
for `R` one of 8000, 16000, 44100 or 48000) through the phase-accumulation
resampler starting at phase 0 yields an output whose length is within plus
or minus one sample of `T * 16000`.  (With exact phase arithmetic the length
is in fact exactly `T * 16000`; the `±1` slack of the specification is
satisfied a fortiori.) -/
theorem resample_output_length (R T : Nat)
    (hR : R = 8000 ∨ R = 16000 ∨ R = 44100 ∨ R = 48000)
    (data : List Int) (hdata : data.length = T * R) :
    (resampleChunk R 0 data).1.length ≤ T * 16000 + 1 ∧
    T * 16000 ≤ (resampleChunk R 0 data).1.length + 1 := by
  have hR0 : 0 < R := by rcases hR with h | h | h | h <;> omega
  obtain ⟨hp, heq⟩ := resampleChunk_spec R hR0 data 0 hR0
  rw [hdata] at heq
  have e : T * R * 16000 = R * (T * 16000) := by ring
  rw [e] at heq
  have hexact : (resampleChunk R 0 data).1.length = T * 16000 := by
    rcases le_or_lt (resampleChunk R 0 data).1.length (T * 16000) with hle | hlt
    · have hm : R * (resampleChunk R 0 data).1.length ≤ R * (T * 16000) :=
        Nat.mul_le_mul_left R hle
      have hml : R * (resampleChunk R 0 data).1.length = R * (T * 16000) := by
        omega
      exact Nat.eq_of_mul_eq_mul_left hR0 hml
    · exfalso
      have hs : T * 16000 + 1 ≤ (resampleChunk R 0 data).1.length := hlt
      have hm : R * (T * 16000 + 1) ≤ R * (resampleChunk R 0 data).1.length :=
        Nat.mul_le_mul_left R hs
      rw [Nat.mul_succ] at hm
      omega
  omega

/-- Witness for C5: one second at the native 16000 Hz rate. -/
theorem resample_output_length_witness :
    (16000 = 8000 ∨ 16000 = 16000 ∨ 16000 = 44100 ∨ 16000 = 48000) ∧
    (List.replicate 16000 (0 : Int)).length = 1 * 16000 ∧
    ((resampleChunk 16000 0 (List.replicate 16000 (0 : Int))).1.length ≤
        1 * 16000 + 1 ∧
      1 * 16000 ≤
        (resampleChunk 16000 0 (List.replicate 16000 (0 : Int))).1.length + 1) :=
  ⟨by decide, by rw [List.length_replicate], resample_output_length 16000 1 (by decide) _ (by rw [List.length_replicate])⟩

/-- C6 counterexample: at the downsampling rate 44100 the phase does not
stay below 1.  After a single input sample the scaled phase is
`28100 / 16000 ≈ 1.756`, which is not in `[0, 1)` (scaled: not `< 16000`). -/
theorem resample_phase_exceeds_one :
    (resampleChunk 44100 0 ([0] : List Int)).2 = 28100 ∧
    ¬ (resampleChunk 44100 0 ([0] : List Int)).2 < 16000 := by
  have h2 : emitLoop 44100 44100 = (0, 44100) := by
    rw [emitLoop]
    norm_num
  have h1 : emitLoop 44100 0 = (1, 44100) := by
    rw [emitLoop]
    norm_num [h2]
  have hstep : resampleChunk 44100 0 ([0] : List Int) = ([0], 28100) := by
    simp only [resampleChunk, h1]
    norm_num [List.replicate]
  rw [hstep]
  exact ⟨rfl, by norm_num⟩

/-- C6 (amended): the resampler phase, fixed ratio `R / 16000` computed once
at stream start, stays in `[0, ratio)` before and after every input sample
(scaled by 16000: the phase stays `< R`); consequently it stays in `[0, 1)`
exactly for input rates `R ≤ 16000`, while for downsampling rates such as
44100 and 48000 it exceeds 1 (see the counterexample). -/
theorem resample_phase_invariant (R : Nat) (hR : 0 < R) (data : List Int) :
    (resampleChunk R 0 data).2 < R ∧
    (R ≤ 16000 → (resampleChunk R 0 data).2 < 16000) := by
  have h := (resampleChunk_spec R hR data 0 hR).1
  exact ⟨h, fun hle => lt_of_lt_of_le h hle⟩

/-- Witness for C6 (amended): rate 44100, one sample; the phase `28100`
(scaled) is below `R = 44100`. -/
theorem resample_phase_invariant_witness :
    0 < 44100 ∧ ((resampleChunk 44100 0 ([0] : List Int)).2 < 44100 ∧
      (44100 ≤ 16000 → (resampleChunk 44100 0 ([0] : List Int)).2 < 16000)) :=
  ⟨by decide, resample_phase_invariant 44100 (by decide) [0]⟩

/-! ## Cancellation claims -/

/-- C7 counterexample: with the cancellation flag cleared, `record_command`
returns the error outcome `Err("Recording stopped")`, and the session loop's
handling of that outcome is the `?`-propagation (session fatal), not a
return to `WakeListening` as the claim states. -/
theorem record_cancelled_counterexample :
    record_loop 1 5 (fun _ => false) initState 0 [([0], true)] =
      RecResult.stopped ∧
    handleRecordResult (Except.error RecErr.stopped) =
      IterAct.sessionFatal RecErr.stopped ∧
    handleRecordResult (Except.error RecErr.stopped) ≠
      IterAct.backToWakeListening := by
  decide

/-- C7 (amended): when the shared flag is cleared at the start of recording,
`record_command` exits with `Err("Recording stopped")` — the same `Result`
error channel used for classifier failures — and the session loop maps every
error outcome, cancellation included, to session-fatal propagation via `?`;
it returns to `WakeListening` only for the `Ok` of an empty utterance, never
for a cancelled recording. -/
theorem record_cancelled_sessionFatal (K F : Nat) (running : Nat → Bool)
    (inputs : List (List Int × Bool)) (hne : inputs ≠ [])
    (h0 : running 0 = false) :
    record_command_result (record_loop K F running initState 0 inputs) =
      some (Except.error RecErr.stopped) ∧
    (∀ e : RecErr, handleRecordResult (Except.error e) = IterAct.sessionFatal e) ∧
    (∀ r : Except RecErr (List Int),
      handleRecordResult r = IterAct.backToWakeListening ↔ r = Except.ok []) := by
  refine ⟨?_, fun e => rfl, ?_⟩
  · rcases inputs with _ | ⟨⟨f, sp⟩, rest⟩
    · exact absurd rfl hne
    · rw [record_loop, if_pos ⟨by omega, h0⟩]
      rfl
  · intro r
    rcases r with e | seg
    · simp [handleRecordResult]
    · by_cases hseg : seg = []
      · simp [handleRecordResult, hseg]
      · simp [handleRecordResult, hseg]

/-- Witness for C7 (amended): flag cleared from the start, one pending frame. -/
theorem record_cancelled_sessionFatal_witness :
    ([([0], true)] : List (List Int × Bool)) ≠ [] ∧
    ((fun _ : Nat => false) 0 = false) ∧
    record_command_result
        (record_loop 1 5 (fun _ => false) initState 0 [([0], true)]) =
      some (Except.error RecErr.stopped) :=
  ⟨by decide, rfl,
    (record_cancelled_sessionFatal 1 5 (fun _ => false) [([0], true)]
      (by decide) rfl).1⟩

lemma record_loop_exits_by (K F : Nat) (running : Nat → Bool) (M : Nat)
    (hM100 : M % 100 = 0) (hMoff : running M = false) :
    ∀ (inputs : List (List Int × Bool)) (s : SegState) (fc : Nat),
      fc ≤ M → M - fc < inputs.length →
      (record_loop K F running s fc inputs =
        record_loop K F running s fc (inputs.take (M + 1 - fc))) ∧
      (∀ s', record_loop K F running s fc inputs ≠ .ranOut s') := by
  intro inputs
  induction inputs with
  | nil =>
    intro s fc hfc hlen
    simp at hlen
  | cons p rest ih =>
    intro s fc hfc hlen
    obtain ⟨f, sp⟩ := p
    have htake : M + 1 - fc = (M - fc) + 1 := by omega
    rw [htake, List.take_succ_cons]
    by_cases hstop : fc % 100 = 0 ∧ running fc = false
    · constructor
      · rw [record_loop, if_pos hstop, record_loop, if_pos hstop]
      · intro s'
        rw [record_loop, if_pos hstop]
        simp
    · have hne : fc ≠ M := by
        intro hfcM
        rw [hfcM] at hstop
        exact hstop ⟨hM100, hMoff⟩
      have hfc' : fc + 1 ≤ M := by omega
      cases hstep : record_step K F s f sp with
      | inr seg =>
        constructor
        · rw [record_loop_cons_inr K F running s seg fc f sp rest hstop hstep,
            record_loop_cons_inr K F running s seg fc f sp _ hstop hstep]
        · intro s'
          rw [record_loop_cons_inr K F running s seg fc f sp rest hstop hstep]
          simp
      | inl s1 =>
        have hlen' : M - (fc + 1) < rest.length := by
          simp only [List.length_cons] at hlen
          omega
        obtain ⟨e1, e2⟩ := ih s1 (fc + 1) hfc' hlen'
        rw [show M + 1 - (fc + 1) = M - fc from by omega] at e1
        constructor
        · rw [record_loop_cons_inl K F running s s1 fc f sp rest hstop hstep,
            record_loop_cons_inl K F running s s1 fc f sp _ hstop hstep]
          exact e1
        · intro s'
          rw [record_loop_cons_inl K F running s s1 fc f sp rest hstop hstep]
          exact e2 s'

lemma wwd_loop_cons_eq (running : Nat → Bool) (fc : Nat)
    (o : Except Unit Int) (rest : List (Except Unit Int)) :
    wait_for_wakeword_loop running fc (o :: rest) =
      if fc % 100 = 0 ∧ running fc = false then .stopped
      else
        match o with
        | .error _ => .procFailed
        | .ok k =>
          if 0 ≤ k then .detected
          else wait_for_wakeword_loop running (fc + 1) rest := rfl

lemma wwd_loop_cons_stop (running : Nat → Bool) (fc : Nat)
    (o : Except Unit Int) (rest : List (Except Unit Int))
    (hstop : fc % 100 = 0 ∧ running fc = false) :
    wait_for_wakeword_loop running fc (o :: rest) = .stopped := by
  rw [wwd_loop_cons_eq, if_pos hstop]

lemma wwd_loop_cons_err (running : Nat → Bool) (fc : Nat) (u : Unit)
    (rest : List (Except Unit Int))
    (hrun : ¬ (fc % 100 = 0 ∧ running fc = false)) :
    wait_for_wakeword_loop running fc (.error u :: rest) = .procFailed := by
  rw [wwd_loop_cons_eq, if_neg hrun]

lemma wwd_loop_cons_ok (running : Nat → Bool) (fc : Nat) (k : Int)
    (rest : List (Except Unit Int))
    (hrun : ¬ (fc % 100 = 0 ∧ running fc = false)) :
    wait_for_wakeword_loop running fc (.ok k :: rest) =
      if 0 ≤ k then .detected
      else wait_for_wakeword_loop running (fc + 1) rest := by
  rw [wwd_loop_cons_eq, if_neg hrun]

lemma wwd_loop_exits_by (running : Nat → Bool) (M : Nat)
    (hM100 : M % 100 = 0) (hMoff : running M = false) :
    ∀ (os : List (Except Unit Int)) (fc : Nat),
      fc ≤ M → M - fc < os.length →
      (wait_for_wakeword_loop running fc os =
        wait_for_wakeword_loop running fc (os.take (M + 1 - fc))) ∧
      (wait_for_wakeword_loop running fc os ≠ .ranOut) := by
  intro os
  induction os with
  | nil =>
    intro fc hfc hlen
    simp at hlen
  | cons o rest ih =>
    intro fc hfc hlen
    have htake : M + 1 - fc = (M - fc) + 1 := by omega
    rw [htake, List.take_succ_cons]
    by_cases hstop : fc % 100 = 0 ∧ running fc = false
    · constructor
      · rw [wwd_loop_cons_stop running fc o rest hstop,
          wwd_loop_cons_stop running fc o _ hstop]
      · rw [wwd_loop_cons_stop running fc o rest hstop]
        simp
    · have hne : fc ≠ M := by
        intro hfcM
        rw [hfcM] at hstop
        exact hstop ⟨hM100, hMoff⟩
      have hfc' : fc + 1 ≤ M := by omega
      rcases o with u | k
      · rw [wwd_loop_cons_err running fc u rest hstop,
          wwd_loop_cons_err running fc u _ hstop]
        exact ⟨rfl, by simp⟩
      · rw [wwd_loop_cons_ok running fc k rest hstop,
          wwd_loop_cons_ok running fc k _ hstop]
        by_cases hk : 0 ≤ k
        · rw [if_pos hk, if_pos hk]
          exact ⟨rfl, by simp⟩
        · rw [if_neg hk, if_neg hk]
          have hlen' : M - (fc + 1) < rest.length := by
            simp only [List.length_cons] at hlen
            omega
          obtain ⟨e1, e2⟩ := ih (fc + 1) hfc' hlen'
          rw [show M + 1 - (fc + 1) = M - fc from by omega] at e1
          exact ⟨e1, e2⟩

/-- C8: if the shared flag is cleared from iteration `N` on, then both the
wake-word loop and the recording loop consult the flag at the next multiple
of 100 (which is less than `N + 100`, i.e. at most 100 further frames) and
exit there at the latest: their outcome is already determined by the first
`nextCheck N + 1` frames and is never the still-running outcome. -/
theorem cancellation_latency (N : Nat) (running : Nat → Bool)
    (hrun : ∀ m, N ≤ m → running m = false) :
    nextCheck N < N + 100 ∧
    (∀ (K F : Nat) (s : SegState) (inputs : List (List Int × Bool)),
      nextCheck N < inputs.length →
      (record_loop K F running s 0 inputs =
        record_loop K F running s 0 (inputs.take (nextCheck N + 1)) ∧
       ∀ s', record_loop K F running s 0 inputs ≠ .ranOut s')) ∧
    (∀ os : List (Except Unit Int),
      nextCheck N < os.length →
      (wait_for_wakeword_loop running 0 os =
        wait_for_wakeword_loop running 0 (os.take (nextCheck N + 1)) ∧
       wait_for_wakeword_loop running 0 os ≠ .ranOut)) := by
  have hM100 : nextCheck N % 100 = 0 := by
    rw [nextCheck]
    omega
  have hMN : N ≤ nextCheck N := by
    rw [nextCheck]
    omega
  have hlt : nextCheck N < N + 100 := by
    rw [nextCheck]
    omega
  refine ⟨hlt, ?_, ?_⟩
  · intro K F s inputs hlen
    have h := record_loop_exits_by K F running (nextCheck N) hM100
      (hrun _ hMN) inputs s 0 (by omega) (by omega)
    simpa using h
  · intro os hlen
    have h := wwd_loop_exits_by running (nextCheck N) hM100
      (hrun _ hMN) os 0 (by omega) (by omega)
    simpa using h

/-- Witness for C8: flag cleared from the start (`N = 0`), one pending frame
for each loop; the first check at iteration 0 stops both. -/
theorem cancellation_latency_witness :
    (∀ m, 0 ≤ m → (fun _ : Nat => false) m = false) ∧
    nextCheck 0 < 0 + 100 ∧
    (record_loop 1 5 (fun _ => false) initState 0 [([0], true)] =
       record_loop 1 5 (fun _ => false) initState 0
         ([([0], true)].take (nextCheck 0 + 1)) ∧
     ∀ s', record_loop 1 5 (fun _ => false) initState 0 [([0], true)] ≠
       .ranOut s') ∧
    (wait_for_wakeword_loop (fun _ => false) 0 [Except.ok 0] =
       wait_for_wakeword_loop (fun _ => false) 0
         ([Except.ok 0].take (nextCheck 0 + 1)) ∧
     wait_for_wakeword_loop (fun _ => false) 0 [Except.ok 0] ≠ .ranOut) := by
  have h := cancellation_latency 0 (fun _ => false) (fun m _ => rfl)
  exact ⟨fun m _ => rfl, h.1,
    h.2.1 1 5 initState [([0], true)] (by decide),
    h.2.2 [Except.ok 0] (by decide)⟩

/-! ## Device selection claim -/

lemma byIndex_eq (names : List String) (i : Nat) (hne : names ≠ []) :
    (match names[i]? with
     | some d => some d
     | none => names[0]?) =
      if i < names.length then names[i]? else names[0]? := by
  by_cases hi : i < names.length
  · rw [List.getElem?_eq_getElem hi, if_pos hi]
  · rw [List.getElem?_eq_none (by omega), if_neg hi]

/-- C9: over a list of enumerated input device names — if a name query is
given and some device name contains it case-insensitively, the first such
device is selected; otherwise the device at the numeric index when in range,
else the device at index 0; a device is returned whenever the list is
non-empty, and `none` is returned exactly when the list is empty. -/
theorem choose_input_device_spec :
    (∀ (q : Option String) (i : Nat), choose_input_device [] q i = none) ∧
    (∀ (names : List String) (i : Nat) (qs found : String),
      names ≠ [] →
      names.find? (fun n => containsCI n qs) = some found →
      choose_input_device names (some qs) i = some found) ∧
    (∀ (names : List String) (i : Nat) (q : Option String),
      names ≠ [] →
      (∀ qs, q = some qs → names.find? (fun n => containsCI n qs) = none) →
      choose_input_device names q i =
        if i < names.length then names[i]? else names[0]?) ∧
    (∀ (names : List String) (q : Option String) (i : Nat),
      names ≠ [] → (choose_input_device names q i).isSome = true) := by
  have hstep : ∀ (names : List String) (i : Nat) (q : Option String),
      names ≠ [] →
      (∀ qs, q = some qs → names.find? (fun n => containsCI n qs) = none) →
      choose_input_device names q i =
        if i < names.length then names[i]? else names[0]? := by
    intro names i q hne hfind
    rcases q with _ | qs
    · rw [choose_input_device, if_neg hne]
      exact byIndex_eq names i hne
    · rw [choose_input_device, if_neg hne]
      simp only [hfind qs rfl]
      exact byIndex_eq names i hne
  refine ⟨?_, ?_, hstep, ?_⟩
  · intro q i
    rw [choose_input_device, if_pos rfl]
  · intro names i qs found hne hfind
    rw [choose_input_device, if_neg hne]
    simp only [hfind]
  · intro names q i hne
    have hlen : 0 < names.length := List.length_pos.mpr hne
    rcases q with _ | qs
    · rw [hstep names i none hne (by intro qs h; cases h)]
      by_cases hi : i < names.length
      · rw [if_pos hi, List.getElem?_eq_getElem hi]
        rfl
      · rw [if_neg hi, List.getElem?_eq_getElem hlen]
        rfl
    · cases hfind : names.find? (fun n => containsCI n qs) with
      | some found =>
        rw [choose_input_device, if_neg hne]
        simp only [hfind]
        rfl
      | none =>
        rw [hstep names i (some qs) hne (by intro qs' h; injection h with h; rw [← h]; exact hfind)]
        by_cases hi : i < names.length
        · rw [if_pos hi, List.getElem?_eq_getElem hi]
          rfl
        · rw [if_neg hi, List.getElem?_eq_getElem hlen]
          rfl

/-- Witness for C9: two devices, a matching query, a non-matching query with
an out-of-range index, and the empty list. -/
theorem choose_input_device_spec_witness :
    (["Webcam Mic", "USB Audio"] : List String) ≠ [] ∧
    ["Webcam Mic", "USB Audio"].find? (fun n => containsCI n "usb") =
      some "USB Audio" ∧
    choose_input_device ["Webcam Mic", "USB Audio"] (some "usb") 5 =
      some "USB Audio" ∧
    choose_input_device [] (some "usb") 5 = none := by
  have h := choose_input_device_spec
  refine ⟨by decide, by decide, ?_, h.1 (some "usb") 5⟩
  exact h.2.1 ["Webcam Mic", "USB Audio"] 5 "usb" "USB Audio" (by decide) (by decide)

/-! ## Non-empty utterance claim -/

lemma record_step_inr_inv (K F : Nat) (s : SegState) (f : List Int) (sp : Bool)
    (seg : List Int) (h : record_step K F s f sp = Sum.inr seg) :
    s.is_speaking = true ∧ sp = false ∧ F ≤ s.silent_frames + 1 ∧
    seg = s.speech_segment ++ f := by
  unfold record_step at h
  split_ifs at h <;> simp_all

lemma record_step_inl_silent_inv (K F : Nat) (s : SegState) (f : List Int)
    (sp : Bool) (s' : SegState) (h : record_step K F s f sp = Sum.inl s')
    (hs' : s'.is_speaking = true) :
    s'.silent_frames = 0 ∨
      (s.is_speaking = true ∧ s'.silent_frames = s.silent_frames + 1 ∧
       s'.speech_segment = s.speech_segment ++ f) := by
  unfold record_step at h
  split_ifs at h <;> injection h with h <;> subst h <;> simp_all

lemma record_loop_closed_bound (K F L : Nat) (running : Nat → Bool) :
    ∀ (inputs : List (List Int × Bool)) (s : SegState) (fc : Nat)
      (seg : List Int),
      (s.is_speaking = true → s.silent_frames * L ≤ s.speech_segment.length) →
      (∀ p ∈ inputs, (p.1 : List Int).length = L) →
      record_loop K F running s fc inputs = .closed seg →
      F * L ≤ seg.length := by
  intro inputs
  induction inputs with
  | nil =>
    intro s fc seg _ _ h
    simp [record_loop] at h
  | cons p rest ih =>
    intro s fc seg hinv hL h
    obtain ⟨f, sp⟩ := p
    by_cases hstop : fc % 100 = 0 ∧ running fc = false
    · rw [record_loop, if_pos hstop] at h
      simp at h
    · cases hstep : record_step K F s f sp with
      | inr seg0 =>
        rw [record_loop_cons_inr K F running s seg0 fc f sp rest hstop hstep] at h
        have hinj : seg0 = seg := by injection h
        obtain ⟨hsp, hspfalse, hFle, hseg0⟩ :=
          record_step_inr_inv K F s f sp seg0 hstep
        have hflen : f.length = L := hL (f, sp) (by simp)
        have hsl : s.silent_frames * L ≤ s.speech_segment.length := hinv hsp
        rw [← hinj, hseg0, List.length_append, hflen]
        have hm : F * L ≤ (s.silent_frames + 1) * L := Nat.mul_le_mul_right L hFle
        rw [Nat.add_mul, one_mul] at hm
        omega
      | inl s1 =>
        rw [record_loop_cons_inl K F running s s1 fc f sp rest hstop hstep] at h
        refine ih s1 (fc + 1) seg ?_ (fun p hp => hL p (by simp [hp])) h
        intro hs1
        rcases record_step_inl_silent_inv K F s f sp s1 hstep hs1 with
          h0 | ⟨hsp, hsf, hss⟩
        · rw [h0]
          simp
        · rw [hsf, hss, List.length_append, hL (f, sp) (by simp)]
          have := hinv hsp
          rw [Nat.add_mul, one_mul]
          omega

/-- C10: whenever `record_command` returns an utterance normally (the loop
closes, rather than being cancelled or failing), the returned sample
sequence has length at least `silence_threshold_frames * L` where `L ≥ 1` is
the frame length in samples — every frame processed in the Triggered state,
the closing silence run included, is appended — hence it is non-empty and
the turn controller's empty-utterance branch is not taken: the outcome is
`Processing`, not `WakeListening`. -/
theorem record_command_nonempty (sec ms K L : Nat) (running : Nat → Bool)
    (inputs : List (List Int × Bool)) (seg : List Int)
    (hL1 : 1 ≤ L) (hL : ∀ p ∈ inputs, (p.1 : List Int).length = L)
    (h : record_loop K (silence_threshold_frames sec ms) running initState 0
      inputs = .closed seg) :
    silence_threshold_frames sec ms * L ≤ seg.length ∧
    seg ≠ [] ∧
    handleRecordResult (Except.ok seg) = IterAct.processing seg := by
  have hb := record_loop_closed_bound K (silence_threshold_frames sec ms) L
    running inputs initState 0 seg
    (by intro hsp; simp [initState] at hsp) hL h
  have h5 := silence_threshold_ge_five sec ms
  have hm : 5 * L ≤ silence_threshold_frames sec ms * L :=
    Nat.mul_le_mul_right L h5
  have hpos : 0 < seg.length := by omega
  have hne : seg ≠ [] := by
    intro hnil
    rw [hnil] at hpos
    simp at hpos
  exact ⟨hb, hne, by simp [handleRecordResult, hne]⟩

/-- Witness for C10: trigger count 1, threshold 5 (`sec = 0`, `ms = 1`),
frame length 1; one speech frame then five silence frames close with the
six-sample utterance `[1, 0, 0, 0, 0, 0]`. -/
theorem record_command_nonempty_witness :
    1 ≤ 1 ∧
    (∀ p ∈ ([([1], true), ([0], false), ([0], false), ([0], false),
        ([0], false), ([0], false)] : List (List Int × Bool)),
      (p.1 : List Int).length = 1) ∧
    record_loop 1 (silence_threshold_frames 0 1) alwaysOn initState 0
        [([1], true), ([0], false), ([0], false), ([0], false),
         ([0], false), ([0], false)] =
      .closed [1, 0, 0, 0, 0, 0] ∧
    (silence_threshold_frames 0 1 * 1 ≤ ([1, 0, 0, 0, 0, 0] : List Int).length ∧
     ([1, 0, 0, 0, 0, 0] : List Int) ≠ [] ∧
     handleRecordResult (Except.ok ([1, 0, 0, 0, 0, 0] : List Int)) =
       IterAct.processing [1, 0, 0, 0, 0, 0]) :=
  ⟨le_refl 1, by decide, by decide,
    record_command_nonempty 0 1 1 1 alwaysOn
      [([1], true), ([0], false), ([0], false), ([0], false),
       ([0], false), ([0], false)]
      [1, 0, 0, 0, 0, 0] (le_refl 1) (by decide) (by decide)⟩

end Jarvis
